import Mathlib

/-!
Verification development for the numerical core of the `nyx` astrodynamics
library: a shallow embedding in Lean 4 of the Runge-Kutta propagator
(`src/propagators/mod.rs`), the orbital / point-mass dynamics
(`src/dynamics/orbital.rs`) and the spherical-harmonic gravity model
(`src/dynamics/gravity.rs`), together with theorems settling the claims of
the specification against that embedding.

`f64` values are modelled as real numbers; machine vectors `VectorN<f64, N>`
become functions `Fin n → ℝ`; fallible trait objects that the claims never
exercise for their error paths are modelled as total functions.
-/

open scoped Classical

noncomputable section

/-! ### Propagator data model (src/propagators/mod.rs, lines 45-106 and 274-320)

`PropOpts` mirrors the Rust struct field for field; the error controller
value `errctrl : E` is carried separately as an estimation function, since
`E::estimate` is the only thing the propagator ever uses it for. -/

/-- Integration options (`PropOpts`): step bounds, tolerance and the maximum
number of adaptive attempts. -/
structure PropOpts where
  init_step : ℝ
  min_step : ℝ
  max_step : ℝ
  tolerance : ℝ
  attempts : ℕ
  fixed_step : Bool

/-- Details of the previous integration step (`IntegrationDetails`). -/
structure IntegrationDetails where
  step : ℝ
  error : ℝ
  attempts : ℕ

/-- The `Propagator` state: the dynamics it drives (time, state vector and the
pure equation-of-motion function `eom(t, state)`), the error-controller
estimation function `E::estimate`, the integration options, the details of the
previous step, the adapted step size for the next call, and the
Butcher-tableau data captured at construction (`order`, `stages`, `a_coeffs`,
`b_coeffs`, `fixed_step`).  The output channel is omitted: nothing settled
here observes it. -/
structure Propagator (n : ℕ) where
  dynTime : ℝ
  dynState : Fin n → ℝ
  eomF : ℝ → (Fin n → ℝ) → (Fin n → ℝ)
  errEst : (Fin n → ℝ) → (Fin n → ℝ) → (Fin n → ℝ) → ℝ
  opts : PropOpts
  details : IntegrationDetails
  step_size : ℝ
  order : ℕ
  stages : ℕ
  a_coeffs : List ℝ
  b_coeffs : List ℝ
  fixed_step : Bool

/-! ### One Runge-Kutta attempt (src/propagators/mod.rs, lines 187-222)

The stage loop: `k_1 = f(t, x)`, then for each further stage read the `a`
coefficients contiguously, accumulate `c_i` and `w_i` over the `k_j` computed
so far, and evaluate `k_i = f(t + c_i·h, x + h·w_i)`.  Finally form the next
state `x + h·Σ b_i k_i` and, for adaptive tableaux, the error-estimate vector
`h·Σ (b_i - b*_i) k_i`. -/

/-- The list of stage derivatives `k` together with the final `a`-coefficient
index, built exactly as the stage loop of `derive` builds them. -/
def rkStages {n : ℕ} (p : Propagator n) (h t : ℝ) (x : Fin n → ℝ) :
    List (Fin n → ℝ) × ℕ :=
  (List.range (p.stages - 1)).foldl
    (fun acc _ =>
      let ks := acc.1
      let aIdx := acc.2
      let ci : ℝ := (ks.enum.map fun je => p.a_coeffs.getD (aIdx + je.1) 0).sum
      let wi : Fin n → ℝ := (ks.enum.map fun je => p.a_coeffs.getD (aIdx + je.1) 0 • je.2).sum
      let ki := p.eomF (t + ci * h) (x + h • wi)
      (ks ++ [ki], aIdx + ks.length))
    ([p.eomF t x], 0)

/-- The candidate next state and the error-estimate vector of one attempt of
`derive` with step size `h` (lines 210-222 of src/propagators/mod.rs). -/
def rkStep {n : ℕ} (p : Propagator n) (h t : ℝ) (x : Fin n → ℝ) :
    (Fin n → ℝ) × (Fin n → ℝ) :=
  let k := (rkStages p h t x).1
  let next := x + (k.enum.map fun je => (h * p.b_coeffs.getD je.1 0) • je.2).sum
  let errv : Fin n → ℝ :=
    if p.fixed_step then 0
    else (k.enum.map fun je =>
      (h * (p.b_coeffs.getD je.1 0 - p.b_coeffs.getD (je.1 + p.stages) 0)) • je.2).sum
  (next, errv)

/-- The scalar error of one attempt: `E::estimate(&error_est, &next_state, &state)`
(line 230 of src/propagators/mod.rs). -/
def attemptErr {n : ℕ} (p : Propagator n) (h t : ℝ) (x : Fin n → ℝ) : ℝ :=
  p.errEst (rkStep p h t x).2 (rkStep p h t x).1 x

/-- The commit test of the adaptive retry loop (lines 231-234 of
src/propagators/mod.rs): the error is within tolerance, or the step size has
reached `min_step`, or the attempts are exhausted. -/
def commitCond {n : ℕ} (p : Propagator n) (a : ℕ) (h t : ℝ) (x : Fin n → ℝ) : Prop :=
  attemptErr p h t x ≤ p.opts.tolerance ∨ h ≤ p.opts.min_step ∨ a ≥ p.opts.attempts

/-- Step-size update on a committed step (lines 240-250 of
src/propagators/mod.rs).  If `err < tolerance` the code proposes
`0.9·h·(tolerance/err)^(1/order)` and clamps it above by `max_step`; otherwise
the step size is untouched.  The `err = 0` branch records the `f64` semantics
of that line at a positive step: `tolerance / 0.0` is `+∞`, its power is `+∞`,
and the clamp maps it to `max_step` (Lean's real division by zero would give
`0` instead, so the limit is made explicit here). -/
def stepAfterCommit {n : ℕ} (p : Propagator n) (h err : ℝ) : ℝ :=
  if err < p.opts.tolerance then
    if err = 0 then p.opts.max_step
    else
      let proposed := 0.9 * h * (p.opts.tolerance / err) ^ ((1 : ℝ) / (p.order : ℝ))
      if proposed > p.opts.max_step then p.opts.max_step else proposed
  else h

/-- Step-size update on a rejected attempt (lines 255-262 of
src/propagators/mod.rs): propose `0.9·h·(tolerance/err)^(1/(order-1))` and
clamp it below by `min_step`. -/
def stepAfterReject {n : ℕ} (p : Propagator n) (h err : ℝ) : ℝ :=
  let proposed := 0.9 * h * (p.opts.tolerance / err) ^ ((1 : ℝ) / ((p.order - 1 : ℕ) : ℝ))
  if proposed < p.opts.min_step then p.opts.min_step else proposed

/-- The body of `derive` (lines 187-265 of src/propagators/mod.rs) as a
function of the current attempt counter `a` and trial step size `h`.  A fixed
step commits at once, recording only `details.step`; an adaptive attempt
records the error and either commits -- updating the step size for the next
call -- or increments the attempt counter, shrinks the step and retries.  The
loop terminates because a non-committing attempt strictly increases `a`,
which is bounded by `opts.attempts` through the commit test. -/
def deriveLoop {n : ℕ} (p : Propagator n) (t : ℝ) (x : Fin n → ℝ) (a : ℕ) (h : ℝ) :
    Propagator n × ℝ × (Fin n → ℝ) :=
  let next := (rkStep p h t x).1
  if p.fixed_step then
    ({ p with details := ⟨h, p.details.error, a⟩ }, t + h, next)
  else
    let err := attemptErr p h t x
    if hc : commitCond p a h t x then
      ({ p with details := ⟨h, err, a⟩, step_size := stepAfterCommit p h err }, t + h, next)
    else
      deriveLoop p t x (a + 1) (stepAfterReject p h err)
termination_by p.opts.attempts - a
decreasing_by
  exact Nat.sub_succ_lt_self _ _ (by
    simp only [commitCond, not_or, not_le] at hc
    exact hc.2.2)

/-- `Propagator::derive` (line 184): reset the attempt counter to 1 and run
the retry loop starting from the stored step size. -/
def derive {n : ℕ} (p : Propagator n) (t : ℝ) (x : Fin n → ℝ) :
    Propagator n × ℝ × (Fin n → ℝ) :=
  deriveLoop p t x 1 p.step_size

/-- `Dynamics::set_state` as the propagation loop uses it: publish the accepted
time and state into the dynamics carried by the propagator. -/
def setState {n : ℕ} (p : Propagator n) (t : ℝ) (x : Fin n → ℝ) : Propagator n :=
  { p with dynTime := t, dynState := x }

/-- `Propagator::set_fixed_step` (lines 103-106): overwrite the step size and
switch the propagator into fixed-step mode. -/
def setFixedStep {n : ℕ} (p : Propagator n) (s : ℝ) : Propagator n :=
  { p with step_size := s, fixed_step := true }

/-- The body of the `loop` of `until_time_elapsed` (lines 133-171 of
src/propagators/mod.rs), with explicit fuel standing for the unbounded Rust
loop: derive one step from the dynamics' current time and state; if the
stopping time has not been crossed (sign-aware), publish and continue;
otherwise, on a nonzero overshoot, set a one-shot fixed step of
`prev_details.step - overshot`, take one final `derive` and publish it to the
dynamics.  Note the scoping of line 154: the corrective
`let (t, state) = self.derive(dt, dx);` rebinds `t`/`state` only inside the
overshoot if-arm, so the `return (t, state)` at line 169 returns the *outer*,
pre-correction overshooting pair; only the dynamics (through `set_state` at
line 155) receives the corrected terminal time and state. -/
def utelLoop {n : ℕ} (bp : Bool) (stop : ℝ) : ℕ → Propagator n →
    Option (Propagator n × ℝ × (Fin n → ℝ))
  | 0, _ => none
  | fuel + 1, p =>
    let d := derive p p.dynTime p.dynState
    let t := d.2.1
    if (t < stop ∧ bp = false) ∨ (stop ≤ t ∧ bp = true) then
      utelLoop bp stop fuel (setState d.1 t d.2.2)
    else
      let overshot := t - stop
      if (bp = false ∧ 0 < overshot) ∨ (bp = true ∧ overshot < 0) then
        let p2 := setFixedStep d.1 (d.1.details.step - overshot)
        let d2 := derive p2 p2.dynTime p2.dynState
        some (setState d2.1 d2.2.1 d2.2.2, t, d.2.2)
      else
        some (setState d.1 t d.2.2, t, d.2.2)

/-- `Propagator::until_time_elapsed` (lines 126-172): note the sign of the
elapsed time, negate the step size once on a backward propagation, record the
stopping time and run the loop. -/
def untilTimeElapsed {n : ℕ} (fuel : ℕ) (p : Propagator n) (elapsed : ℝ) :
    Option (Propagator n × ℝ × (Fin n → ℝ)) :=
  let bp : Bool := if elapsed < 0 then true else false
  let p0 := if bp = true then { p with step_size := p.step_size * -1 } else p
  utelLoop bp (p0.dynTime + elapsed) fuel p0

/-! ### Hyperdual numbers (the `hyperdual` crate used by src/dynamics/orbital.rs)

Modelled from the spec: the dual-number carrier `Hyperdual<f64, Const<7>>` is
a tuple of one real component (index 0) and six dual components (indices
1..6); arithmetic obeys the first-order dual rules of section 9 of the
specification, and `hyperspace_from_vector` lifts component `i` of a vector
with a unit dual part in slot `i + 1` (the slot convention the Jacobian
extraction of `dual_eom` reads back with `[j]`, `j = 1..7`). -/

/-- A hyperdual number with 7 components: index 0 is the real part. -/
abbrev Dual := Fin 7 → ℝ

/-- Dual multiplication: real parts multiply, dual parts obey the product rule. -/
def dmul (a b : Dual) : Dual :=
  fun j => if j = 0 then a 0 * b 0 else a 0 * b j + a j * b 0

/-- Dual division: the quotient rule on the dual parts. -/
def ddiv (a b : Dual) : Dual :=
  fun j => if j = 0 then a 0 / b 0 else (a j * b 0 - a 0 * b j) / (b 0 * b 0)

/-- `Hyperdual::from_real`: a constant in dual space. -/
def dfromReal (c : ℝ) : Dual := fun j => if j = 0 then c else 0

/-- `Float::powi` on a dual number: `a^k` with dual parts `k·a^(k-1)·a'`. -/
def dpowi (a : Dual) (k : ℕ) : Dual :=
  fun j => if j = 0 then a 0 ^ k else (k : ℝ) * a 0 ^ (k - 1) * a j

/-- `Float::sqrt` on a dual number. -/
def dsqrt (a : Dual) : Dual :=
  fun j => if j = 0 then Real.sqrt (a 0) else a j / (2 * Real.sqrt (a 0))

/-- `hyperdual::linalg::norm` of a 3-vector of duals. -/
def dnorm (v : Fin 3 → Dual) : Dual :=
  dsqrt (dmul (v 0) (v 0) + dmul (v 1) (v 1) + dmul (v 2) (v 2))

/-- `hyperspace_from_vector` on a 6-vector: component `i` is lifted with real
part `v i` and a unit dual part in slot `i + 1`. -/
def lift6 (v : Fin 6 → ℝ) : Fin 6 → Dual :=
  fun i j => if j = 0 then v i else if (j : ℕ) = (i : ℕ) + 1 then 1 else 0

/-! ### Orbital dynamics data model (src/dynamics/orbital.rs)

Modelled from the spec where the type lives outside src/: `cosmic::Frame`
carries an identity (its ephemeris path) and the body `GM`; `cosmic::Orbit`
carries position, velocity, an epoch, a frame handle and an optional 6×6 STM
(section 3 of the specification). -/

/-- A celestial frame handle: ephemeris identity and gravitational parameter. -/
structure Frame where
  ephemPath : ℕ
  gm : ℝ

/-- Light-time correction selector (`LTCorr`). -/
inductive LTCorr
  | noCorr
  | abberation
  | lightTime

/-- Euclidean norm of a 3-vector (nalgebra `Vector3::norm`). -/
def norm3 (v : Fin 3 → ℝ) : ℝ := Real.sqrt (v 0 ^ 2 + v 1 ^ 2 + v 2 ^ 2)

/-- An orbit state: position/velocity (km, km/s), epoch, frame, optional STM. -/
structure Orbit where
  radius : Fin 3 → ℝ
  velocity : Fin 3 → ℝ
  dt : ℝ
  frame : Frame
  stm : Option (Matrix (Fin 6) (Fin 6) ℝ)

/-- `Orbit::rmag`: the norm of the position. -/
def Orbit.rmag (o : Orbit) : ℝ := norm3 o.radius

/-- `Orbit::stm()`: the carried STM (the code only reads it when `stm.is_some()`). -/
def Orbit.stmD (o : Orbit) : Matrix (Fin 6) (Fin 6) ℝ := o.stm.getD 0

/-- An acceleration model (`AccelModel` trait of src/dynamics/mod.rs): a real
acceleration from an osculating orbit, and a dual variant returning the
acceleration and its 3×3 position Jacobian. -/
structure AccelModel where
  eomFn : Orbit → (Fin 3 → ℝ)
  dualEomFn : (Fin 3 → Dual) → Orbit → (Fin 3 → ℝ) × Matrix (Fin 3) (Fin 3) ℝ

/-- `OrbitalDynamics::dual_eom` (src/dynamics/orbital.rs, lines 144-189):
split the lifted state into radius and velocity, compute the two-body
acceleration `r · (-μ / ‖r‖³)` in dual arithmetic, extract the 6-state and the
6×6 Jacobian (`grad[(i, j-1)]` reads dual slot `j`), then fold in each
acceleration model's dual contribution on rows 3..5, columns 0..2. -/
def orbitalDualEom (models : List AccelModel) (ctx : Orbit) (state : Fin 6 → Dual) :
    (Fin 6 → ℝ) × Matrix (Fin 6) (Fin 6) ℝ :=
  let radius : Fin 3 → Dual := fun i => state ⟨i.val, by omega⟩
  let velocity : Fin 3 → Dual := fun i => state ⟨i.val + 3, by omega⟩
  let rmagD := dnorm radius
  let bodyAcc : Fin 3 → Dual :=
    fun i => dmul (radius i) (ddiv (dfromReal (-ctx.frame.gm)) (dpowi rmagD 3))
  let fx0 : Fin 6 → ℝ :=
    fun i => if hi : i.val < 3 then velocity ⟨i.val, hi⟩ 0 else bodyAcc ⟨i.val - 3, by omega⟩ 0
  let grad0 : Matrix (Fin 6) (Fin 6) ℝ :=
    Matrix.of fun i j =>
      if hi : i.val < 3 then velocity ⟨i.val, hi⟩ j.succ else bodyAcc ⟨i.val - 3, by omega⟩ j.succ
  models.foldl
    (fun acc m =>
      let md := m.dualEomFn radius ctx
      (fun i => if hi : 3 ≤ i.val then acc.1 i + md.1 ⟨i.val - 3, by omega⟩ else acc.1 i,
       Matrix.of fun i j =>
         if hij : 3 ≤ i.val ∧ j.val < 3 then
           acc.2 i j + md.2 ⟨i.val - 3, by omega⟩ ⟨j.val, hij.2⟩
         else acc.2 i j))
    (fx0, grad0)

/-- `OrbitalDynamics::eom` (src/dynamics/orbital.rs, lines 94-142).  With an
STM in the context: call `dual_eom` on the dual lift of the first six entries,
multiply `stm_dt = ctx.stm() * grad`, and append its row-major flattening to
the 6-state.  Without an STM: rebuild an osculating orbit (`ctor_from`,
modelled from the spec as a parameter since `cosmic::Orbit` is outside src/),
apply the two-body acceleration and the acceleration models, and pad with 36
zeros. -/
def orbitalEom (models : List AccelModel) (ctorFrom : ℝ → (Fin 42 → ℝ) → Orbit)
    (delta_t_s : ℝ) (state : Fin 42 → ℝ) (ctx : Orbit) : Fin 42 → ℝ :=
  if ctx.stm.isSome then
    let posVel : Fin 6 → ℝ := fun i => state ⟨i.val, by omega⟩
    let res := orbitalDualEom models ctx (lift6 posVel)
    let stmDt := ctx.stmD * res.2
    let stmVec : Fin 36 → ℝ := fun k => stmDt ⟨k.val / 6, by omega⟩ ⟨k.val % 6, by omega⟩
    fun idx => if hi : idx.val < 6 then res.1 ⟨idx.val, hi⟩ else stmVec ⟨idx.val - 6, by omega⟩
  else
    let osc := ctorFrom delta_t_s state
    let bodyAcc : Fin 3 → ℝ := fun i => (-osc.frame.gm / osc.rmag ^ 3) * osc.radius i
    let dx0 : Fin 6 → ℝ :=
      fun i => if hi : i.val < 3 then osc.velocity ⟨i.val, hi⟩ else bodyAcc ⟨i.val - 3, by omega⟩
    let dx := models.foldl
      (fun acc m =>
        let ma := m.eomFn osc
        fun i => if hi : 3 ≤ i.val then acc i + ma ⟨i.val - 3, by omega⟩ else acc i) dx0
    fun idx => if hi : idx.val < 6 then dx ⟨idx.val, hi⟩ else 0

/-! ### Point-mass third-body perturbations (src/dynamics/orbital.rs, lines 192-269) -/

/-- The point-mass model: third-body frame handles, the ephemeris service
(`Cosm::celestial_state`, modelled from the spec as a function from the query
arguments to the returned state's position), and the light-time correction. -/
structure PointMasses where
  bodies : List Frame
  cosm : Frame → ℝ → Frame → LTCorr → (Fin 3 → ℝ)
  correction : LTCorr

/-- The contribution of one third body in `PointMasses::eom` (lines 254-266):
`-GM_B · (r_j/‖r_j‖³ + r_ij/‖r_ij‖³)` with `r_ij` the ephemeris position of
the body seen from the center and `r_j = r - r_ij`. -/
def pmBodyAccel (pm : PointMasses) (osc : Orbit) (tb : Frame) : Fin 3 → ℝ :=
  let rij := pm.cosm tb osc.dt osc.frame pm.correction
  let rij3 := norm3 rij ^ 3
  let rj : Fin 3 → ℝ := fun i => osc.radius i - rij i
  let rj3 := norm3 rj ^ 3
  fun i => -tb.gm * (rj i / rj3 + rij i / rij3)

/-- `PointMasses::eom` (lines 246-269): fold over the configured bodies,
skipping any body equal to the integration frame, accumulating the Battin
indirect-form acceleration. -/
def pmEomFn (pm : PointMasses) (osc : Orbit) : Fin 3 → ℝ :=
  pm.bodies.foldl
    (fun dx tb => if tb = osc.frame then dx else dx + pmBodyAccel pm osc tb)
    (fun _ => 0)

/-! ### Spherical harmonics (src/dynamics/gravity.rs)

The associated-Legendre table `a_matrix` is represented functionally: the
allocated `(max_degree+3)²` table of zeros is the constant-zero function, and
each sequential write of the Rust loops becomes a `tWrite`.  The write phases
are composed in exactly the order the code performs them. -/

/-- Overwrite one entry of a functional table. -/
def tWrite (f : ℕ → ℕ → ℝ) (i j : ℕ) (v : ℝ) : ℕ → ℕ → ℝ :=
  fun a b => if a = i ∧ b = j then v else f a b

/-- Diagonal initialization (lines 100-103): for `n = 1 ..= max_degree+2`,
`A[n][n] = √((2n+1)/(2n)) · A[n-1][n-1]`. -/
def aDiag (N : ℕ) (f0 : ℕ → ℕ → ℝ) : ℕ → ℕ → ℝ :=
  (List.range' 1 (N + 2)).foldl
    (fun f nn =>
      tWrite f nn nn (Real.sqrt ((2 * (nn : ℝ) + 1) / (2 * (nn : ℝ))) * f (nn - 1) (nn - 1)))
    f0

/-- First sub-diagonal (lines 107-110): for `n = 1 ..= max_degree+1`,
`A[n+1][n] = u·√(2n+3)·A[n][n]`. -/
def aSubDiag (N : ℕ) (u : ℝ) (f0 : ℕ → ℕ → ℝ) : ℕ → ℕ → ℝ :=
  (List.range' 1 (N + 1)).foldl
    (fun f nn => tWrite f (nn + 1) nn (u * Real.sqrt (2 * (nn : ℝ) + 3) * f nn nn))
    f0

/-- Column-fill recursion (lines 113-125): for `m = 0 ..= max_order+1` and
`n = m+2 ..= max_degree+1`, `A[n][m] = u·n1·A[n-1][m] - n2·A[n-2][m]`. -/
def aColFill (N M : ℕ) (u : ℝ) (f0 : ℕ → ℕ → ℝ) : ℕ → ℕ → ℝ :=
  (List.range (M + 2)).foldl
    (fun f mm =>
      (List.range' (mm + 2) (N + 2 - (mm + 2))).foldl
        (fun g nn =>
          tWrite g nn mm
            (u * Real.sqrt (((2 * (nn : ℝ) + 1) * (2 * (nn : ℝ) - 1)) /
                (((nn : ℝ) - (mm : ℝ)) * ((nn : ℝ) + (mm : ℝ)))) * g (nn - 1) mm -
              Real.sqrt (((2 * (nn : ℝ) + 1) * ((nn : ℝ) - (mm : ℝ) - 1) * ((nn : ℝ) + (mm : ℝ) - 1)) /
                ((2 * (nn : ℝ) - 3) * ((nn : ℝ) + (mm : ℝ)) * ((nn : ℝ) - (mm : ℝ)))) * g (nn - 2) mm))
        f)
    f0

/-- The fully built associated-Legendre table of `Harmonics::eom` for maximum
degree `N` and maximum order `M` at `u = z/r`: zero allocation, `A[0][0] = 1`,
diagonal, `A[1][0] = u·√3`, sub-diagonal, column fill -- in program order. -/
def aTable (N M : ℕ) (u : ℝ) : ℕ → ℕ → ℝ :=
  aColFill N M u
    (aSubDiag N u
      (tWrite (aDiag N (tWrite (fun _ _ => 0) 0 0 1)) 1 0 (u * Real.sqrt 3)))

/-- The incremental complex longitude powers (lines 126-137):
`(re, im)[m]` is `(s + i·t)^m`. -/
def reIm (s t : ℝ) : ℕ → ℝ × ℝ
  | 0 => (1, 0)
  | m + 1 =>
    (s * (reIm s t m).1 - t * (reIm s t m).2, s * (reIm s t m).2 + t * (reIm s t m).1)

/-- The `vr01` recursion-constant table (lines 84-96): filled for
`n ≤ max_degree`, `m ≤ min n max_order`, zero elsewhere (the allocation). -/
def vr01t (N M : ℕ) : ℕ → ℕ → ℝ :=
  fun nn mm =>
    if nn ≤ N ∧ mm ≤ min nn M then
      if mm = 0 then Real.sqrt (((nn : ℝ) - (mm : ℝ)) * ((nn : ℝ) + (mm : ℝ) + 1)) / Real.sqrt 2
      else Real.sqrt (((nn : ℝ) - (mm : ℝ)) * ((nn : ℝ) + (mm : ℝ) + 1))
    else 0

/-- The `vr11` recursion-constant table (lines 84-96). -/
def vr11t (N M : ℕ) : ℕ → ℕ → ℝ :=
  fun nn mm =>
    if nn ≤ N ∧ mm ≤ min nn M then
      if mm = 0 then
        Real.sqrt ((2 * (nn : ℝ) + 1) * ((nn : ℝ) + (mm : ℝ) + 2) * ((nn : ℝ) + (mm : ℝ) + 1) /
          (2 * (nn : ℝ) + 3)) / Real.sqrt 2
      else
        Real.sqrt ((2 * (nn : ℝ) + 1) * ((nn : ℝ) + (mm : ℝ) + 2) * ((nn : ℝ) + (mm : ℝ) + 1) /
          (2 * (nn : ℝ) + 3))
    else 0

/-- The inner-sum accumulator of the outer harmonic loop (`sum1..sum4`). -/
structure HarmSums where
  s1 : ℝ
  s2 : ℝ
  s3 : ℝ
  s4 : ℝ

/-- The outer-loop accumulator of `Harmonics::eom` (`rho_np1, a1..a4`). -/
structure HarmAcc where
  rhoNp1 : ℝ
  a1 : ℝ
  a2 : ℝ
  a3 : ℝ
  a4 : ℝ

/-- `Harmonics::eom` (src/dynamics/gravity.rs, lines 46-179): the normalized
spherical-harmonic acceleration delta.  `neg_mu` is the stored `-GM`,
`body_radius` the reference radius, `cs` the coefficient storage
(`GravityPotentialStor::cs_nm`), `N`/`M` the effective maximum degree and
order.  Returns a 6-vector whose first three components are the literal zeros
the code writes. -/
def harmonicsEom (neg_mu body_radius : ℝ) (cs : ℕ → ℕ → ℝ × ℝ) (N M : ℕ)
    (state : Fin 6 → ℝ) : Fin 6 → ℝ :=
  let r := norm3 (fun i => state ⟨i.val, by omega⟩)
  let s := state 0 / r
  let t := state 1 / r
  let u := state 2 / r
  let sqrt2 := Real.sqrt 2
  let A := aTable N M u
  let vr01 := vr01t N M
  let vr11 := vr11t N M
  let rho := body_radius / r
  let acc := (List.range' 1 N).foldl
    (fun (acc : HarmAcc) nn =>
      let rhoNp1 := acc.rhoNp1 * rho
      let sums := (List.range (min nn M + 1)).foldl
        (fun (sm : HarmSums) mm =>
          let cS := cs nn mm
          let d := (cS.1 * (reIm s t mm).1 + cS.2 * (reIm s t mm).2) * sqrt2
          let e := if mm = 0 then 0
            else (cS.1 * (reIm s t (mm - 1)).1 + cS.2 * (reIm s t (mm - 1)).2) * sqrt2
          let f := if mm = 0 then 0
            else (cS.2 * (reIm s t (mm - 1)).1 - cS.1 * (reIm s t (mm - 1)).2) * sqrt2
          { s1 := sm.s1 + (mm : ℝ) * A nn mm * e,
            s2 := sm.s2 + (mm : ℝ) * A nn mm * f,
            s3 := sm.s3 + vr01 nn mm * A nn (mm + 1) * d,
            s4 := sm.s4 + vr11 nn mm * A (nn + 1) (mm + 1) * d })
        ⟨0, 0, 0, 0⟩
      let rr := rhoNp1 / body_radius
      { rhoNp1 := rhoNp1,
        a1 := acc.a1 + rr * sums.s1,
        a2 := acc.a2 + rr * sums.s2,
        a3 := acc.a3 + rr * sums.s3,
        a4 := acc.a4 - rr * sums.s4 })
    ⟨(-neg_mu / r) * rho, 0, 0, 0, 0⟩
  ![0, 0, 0, acc.a1 + acc.a4 * s, acc.a2 + acc.a4 * t, acc.a3 + acc.a4 * u]

/-! ### Concrete instances used by counterexamples and witnesses -/

/-- A one-dimensional test propagator: constant unit dynamics, a constant
error controller returning `ev`, one stage, `b_coeffs = [1, 0]`. -/
def cP (ev tol mins maxs : ℝ) (mA ord : ℕ) (h : ℝ) (fs : Bool) : Propagator 1 :=
  { dynTime := 0
    dynState := fun _ => 0
    eomF := fun _ _ => fun _ => 1
    errEst := fun _ _ _ => ev
    opts := ⟨maxs, mins, maxs, tol, mA, false⟩
    details := ⟨0, 0, 1⟩
    step_size := h
    order := ord
    stages := 1
    a_coeffs := []
    b_coeffs := [1, 0]
    fixed_step := fs }

/-- An adaptive propagator whose error estimate 1 exceeds its tolerance 1/2. -/
def c2prop : Propagator 1 := cP 1 (1/2) (1/100) 100 5 2 1 false

/-- `c2prop` after the step-size negation performed at the entry of
`until_time_elapsed` on a backward propagation. -/
def c2neg : Propagator 1 := { c2prop with step_size := c2prop.step_size * -1 }

/-- An adaptive propagator with zero error estimate, `min_step = 1/2`,
`max_step = 1`, unit initial step. -/
def c3prop : Propagator 1 := cP 0 1 (1/2) 1 5 2 1 false

/-- The STM carried by the C1 counterexample context: a single 1 in the
top-left corner. -/
def c1Phi : Matrix (Fin 6) (Fin 6) ℝ := Matrix.of fun i j => if i = 0 ∧ j = 0 then 1 else 0

/-- The C1 context orbit: unit GM, STM slot populated with `c1Phi`. -/
def c1Ctx : Orbit :=
  { radius := fun _ => 0, velocity := fun _ => 0, dt := 0, frame := ⟨399, 1⟩, stm := some c1Phi }

/-- The C1 propagation vector: position `(1,0,0)`, velocity zero, STM slots zero. -/
def c1State : Fin 42 → ℝ := fun i => if i.val = 0 then 1 else 0

/-- The first six entries of `c1State`. -/
def c1PosVel : Fin 6 → ℝ := fun i => if i.val = 0 then 1 else 0

/-- A trivial osculating-orbit constructor for the (unreached) non-STM branch. -/
def c1Ctor : ℝ → (Fin 42 → ℝ) → Orbit := fun _ _ => c1Ctx

/-- An adaptive propagator with zero error estimate and `max_step = 10`. -/
def c4p : Propagator 1 := cP 0 1 (1/100) 10 5 2 1 false

/-- An adaptive propagator whose error estimate 3 exceeds its tolerance 1. -/
def cRej : Propagator 1 := cP 3 1 (1/100) 10 5 2 1 false

/-! ### Helper lemmas about the derive loop -/

/-- Unfolding `deriveLoop` in fixed-step mode. -/
lemma deriveLoop_fixed {n : ℕ} (p : Propagator n) (t : ℝ) (x : Fin n → ℝ) (a : ℕ) (h : ℝ)
    (hfs : p.fixed_step = true) :
    deriveLoop p t x a h =
      ({ p with details := ⟨h, p.details.error, a⟩ }, t + h, (rkStep p h t x).1) := by
  rw [deriveLoop]
  simp [hfs]

/-- Unfolding `deriveLoop` on a committing adaptive attempt. -/
lemma deriveLoop_commit {n : ℕ} (p : Propagator n) (t : ℝ) (x : Fin n → ℝ) (a : ℕ) (h : ℝ)
    (hfs : p.fixed_step = false) (hc : commitCond p a h t x) :
    deriveLoop p t x a h =
      ({ p with details := ⟨h, attemptErr p h t x, a⟩, step_size := stepAfterCommit p h (attemptErr p h t x) }, t + h, (rkStep p h t x).1) := by
  rw [deriveLoop]
  simp [hfs, hc]

/-- Unfolding `deriveLoop` on a rejected adaptive attempt. -/
lemma deriveLoop_reject {n : ℕ} (p : Propagator n) (t : ℝ) (x : Fin n → ℝ) (a : ℕ) (h : ℝ)
    (hfs : p.fixed_step = false) (hc : ¬ commitCond p a h t x) :
    deriveLoop p t x a h = deriveLoop p t x (a + 1) (stepAfterReject p h (attemptErr p h t x)) := by
  conv_lhs => rw [deriveLoop]
  simp [hfs, hc]

/-- `deriveLoop` only rewrites the integration details and the step size. -/
lemma deriveLoop_shape {n : ℕ} (p : Propagator n) (t : ℝ) (x : Fin n → ℝ) (a : ℕ) (h : ℝ) :
    ∃ d s, (deriveLoop p t x a h).1 = { p with details := d, step_size := s } := by
  induction a, h using deriveLoop.induct p t x with
  | case1 a h hfs =>
    exact ⟨⟨h, p.details.error, a⟩, p.step_size, by rw [deriveLoop_fixed p t x a h hfs]⟩
  | case2 a h hfs hc =>
    rw [Bool.not_eq_true] at hfs
    exact ⟨_, _, by rw [deriveLoop_commit p t x a h hfs hc]⟩
  | case3 a h hfs err hc ih =>
    rw [Bool.not_eq_true] at hfs
    rw [deriveLoop_reject p t x a h hfs hc]
    exact ih

/-- `deriveLoop` preserves the dynamics time. -/
lemma deriveLoop_dynTime {n : ℕ} (p : Propagator n) (t : ℝ) (x : Fin n → ℝ) (a : ℕ) (h : ℝ) :
    (deriveLoop p t x a h).1.dynTime = p.dynTime := by
  obtain ⟨d, s, hds⟩ := deriveLoop_shape p t x a h
  rw [hds]

/-- `deriveLoop` preserves the dynamics state. -/
lemma deriveLoop_dynState {n : ℕ} (p : Propagator n) (t : ℝ) (x : Fin n → ℝ) (a : ℕ) (h : ℝ) :
    (deriveLoop p t x a h).1.dynState = p.dynState := by
  obtain ⟨d, s, hds⟩ := deriveLoop_shape p t x a h
  rw [hds]

/-- `deriveLoop` preserves the fixed-step flag. -/
lemma deriveLoop_fixedFlag {n : ℕ} (p : Propagator n) (t : ℝ) (x : Fin n → ℝ) (a : ℕ) (h : ℝ) :
    (deriveLoop p t x a h).1.fixed_step = p.fixed_step := by
  obtain ⟨d, s, hds⟩ := deriveLoop_shape p t x a h
  rw [hds]

/-- The time returned by `deriveLoop` is the input time plus the committed step. -/
lemma deriveLoop_time {n : ℕ} (p : Propagator n) (t : ℝ) (x : Fin n → ℝ) (a : ℕ) (h : ℝ) :
    (deriveLoop p t x a h).2.1 = t + (deriveLoop p t x a h).1.details.step := by
  induction a, h using deriveLoop.induct p t x with
  | case1 a h hfs => rw [deriveLoop_fixed p t x a h hfs]
  | case2 a h hfs hc =>
    rw [Bool.not_eq_true] at hfs
    rw [deriveLoop_commit p t x a h hfs hc]
  | case3 a h hfs err hc ih =>
    rw [Bool.not_eq_true] at hfs
    rw [deriveLoop_reject p t x a h hfs hc]
    exact ih

/-- The committed attempt counter never decreases below the starting counter. -/
lemma deriveLoop_attempts_le {n : ℕ} (p : Propagator n) (t : ℝ) (x : Fin n → ℝ) (a : ℕ) (h : ℝ) :
    a ≤ (deriveLoop p t x a h).1.details.attempts := by
  induction a, h using deriveLoop.induct p t x with
  | case1 a h hfs => rw [deriveLoop_fixed p t x a h hfs]
  | case2 a h hfs hc =>
    rw [Bool.not_eq_true] at hfs
    rw [deriveLoop_commit p t x a h hfs hc]
  | case3 a h hfs err hc ih =>
    rw [Bool.not_eq_true] at hfs
    rw [deriveLoop_reject p t x a h hfs hc]
    exact le_trans (Nat.le_succ a) ih

/-- Whatever `deriveLoop` commits in adaptive mode satisfies the commit test. -/
lemma deriveLoop_commit_inv {n : ℕ} (p : Propagator n) (t : ℝ) (x : Fin n → ℝ) (a : ℕ) (h : ℝ)
    (hfs : p.fixed_step = false) :
    (deriveLoop p t x a h).1.details.error ≤ p.opts.tolerance ∨
      (deriveLoop p t x a h).1.details.step ≤ p.opts.min_step ∨
      p.opts.attempts ≤ (deriveLoop p t x a h).1.details.attempts := by
  induction a, h using deriveLoop.induct p t x with
  | case1 a h hfs1 => exact absurd (hfs ▸ hfs1) (by simp)
  | case2 a h hfs1 hc =>
    rw [Bool.not_eq_true] at hfs1
    rw [deriveLoop_commit p t x a h hfs1 hc]
    exact hc
  | case3 a h hfs1 err hc ih =>
    rw [Bool.not_eq_true] at hfs1
    rw [deriveLoop_reject p t x a h hfs1 hc]
    exact ih

/-! ### Claim theorems for the propagator -/

/-- C9: a call to `derive` never mutates the dynamics -- the dynamics' time
and state observed after any `derive` call equal their values before it, for
every input time, state and step-control configuration; only the `set_state`
calls of `until_time_elapsed` advance them. -/
theorem derive_preserves_dynamics {n : ℕ} (p : Propagator n) (t : ℝ) (x : Fin n → ℝ) :
    (derive p t x).1.dynTime = p.dynTime ∧ (derive p t x).1.dynState = p.dynState := by
  rw [derive]
  exact ⟨deriveLoop_dynTime p t x 1 p.step_size, deriveLoop_dynState p t x 1 p.step_size⟩

/-- C4: the adaptive retry loop of `derive` commits exactly when
`err ≤ tolerance`, or `h ≤ min_step`, or the attempts are exhausted: the
committed details always satisfy that disjunction; if the first attempt
satisfies the commit test the call returns with attempt count 1; otherwise
the attempt counter is incremented and the loop retries. -/
theorem derive_commit_iff {n : ℕ} (p : Propagator n) (t : ℝ) (x : Fin n → ℝ)
    (hfs : p.fixed_step = false) :
    ((derive p t x).1.details.error ≤ p.opts.tolerance ∨
      (derive p t x).1.details.step ≤ p.opts.min_step ∨
      p.opts.attempts ≤ (derive p t x).1.details.attempts) ∧
    (commitCond p 1 p.step_size t x → (derive p t x).1.details.attempts = 1) ∧
    (¬ commitCond p 1 p.step_size t x → 2 ≤ (derive p t x).1.details.attempts) := by
  refine ⟨?_, ?_, ?_⟩
  · rw [derive]
    exact deriveLoop_commit_inv p t x 1 p.step_size hfs
  · intro hc
    rw [derive, deriveLoop_commit _ _ _ _ _ hfs hc]
  · intro hc
    rw [derive, deriveLoop_reject _ _ _ _ _ hfs hc]
    exact deriveLoop_attempts_le p t x 2 _

/-- Witness for C4 at a concrete adaptive propagator. -/
theorem derive_commit_iff_witness :
    c4p.fixed_step = false ∧
    ((derive c4p 0 (fun _ => 0)).1.details.error ≤ c4p.opts.tolerance ∨
      (derive c4p 0 (fun _ => 0)).1.details.step ≤ c4p.opts.min_step ∨
      c4p.opts.attempts ≤ (derive c4p 0 (fun _ => 0)).1.details.attempts) :=
  ⟨rfl, (derive_commit_iff c4p 0 (fun _ => 0) rfl).1⟩

/-- C2 (amended): `until_time_elapsed` negates the step size once at entry of
a backward propagation, but the adaptive commit test and both clamps of
`derive` compare signed values, not magnitudes: a negative step size is
always `≤ min_step`, so every attempt commits immediately -- regardless of
the error -- and the loop never retries. -/
theorem derive_negative_step_commits {n : ℕ} (p : Propagator n) (t : ℝ) (x : Fin n → ℝ)
    (hfs : p.fixed_step = false) (hneg : p.step_size < 0) (hmin : 0 < p.opts.min_step) :
    (derive p t x).1.details.attempts = 1 ∧ (derive p t x).1.details.step = p.step_size ∧
    (derive p t x).2.1 = t + p.step_size := by
  have hc : commitCond p 1 p.step_size t x := Or.inr (Or.inl (le_of_lt (lt_trans hneg hmin)))
  rw [derive, deriveLoop_commit _ _ _ _ _ hfs hc]
  exact ⟨rfl, rfl, rfl⟩

/-- Witness for the amended C2 at a concrete backward-propagating state. -/
theorem derive_negative_step_commits_witness :
    (c2neg.fixed_step = false ∧ c2neg.step_size < 0 ∧ 0 < c2neg.opts.min_step) ∧
    (derive c2neg 5 (fun _ => 0)).1.details.attempts = 1 := by
  have h1 : c2neg.step_size < 0 := by norm_num [c2neg, c2prop, cP]
  have h2 : (0 : ℝ) < c2neg.opts.min_step := by norm_num [c2neg, c2prop, cP]
  exact ⟨⟨rfl, h1, h2⟩, (derive_negative_step_commits c2neg 5 (fun _ => 0) rfl h1 h2).1⟩

/-- C2 counterexample: after the entry negation of a backward propagation,
an attempt whose error estimate (1) exceeds the tolerance (1/2) is *not*
retried: the signed commit test `h ≤ min_step` holds at once and the step is
committed on attempt 1 with its error above tolerance. -/
theorem derive_backward_commit_counterexample :
    c2neg.opts.tolerance < attemptErr c2neg c2neg.step_size 0 (fun _ => 0) ∧
    (derive c2neg 0 (fun _ => 0)).1.details.error =
      attemptErr c2neg c2neg.step_size 0 (fun _ => 0) ∧
    (derive c2neg 0 (fun _ => 0)).1.details.attempts = 1 := by
  have hfs : c2neg.fixed_step = false := rfl
  have herr : attemptErr c2neg c2neg.step_size 0 (fun _ => 0) = 1 := rfl
  have hc : commitCond c2neg 1 c2neg.step_size 0 (fun _ => 0) := by
    refine Or.inr (Or.inl ?_)
    show c2neg.step_size ≤ c2neg.opts.min_step
    norm_num [c2neg, c2prop, cP]
  refine ⟨?_, ?_, ?_⟩
  · rw [herr]
    norm_num [c2neg, c2prop, cP]
  · rw [derive, deriveLoop_commit _ _ _ _ _ hfs hc]
  · rw [derive, deriveLoop_commit _ _ _ _ _ hfs hc]

/-- C5: adaptive step-size updates of `derive`.  On a commit with
`err < tolerance` the stored step becomes `0.9·h·(tolerance/err)^(1/order)`
clamped above by `max_step` (with `err = 0` yielding `max_step`); on a commit
with `err = tolerance` the step size is unchanged; a rejected attempt retries
with `0.9·h·(tolerance/err)^(1/(order-1))` clamped below by `min_step`. -/
theorem derive_step_update {n : ℕ} (p : Propagator n) (t : ℝ) (x : Fin n → ℝ) (a : ℕ) (h : ℝ)
    (hfs : p.fixed_step = false) :
    (commitCond p a h t x → attemptErr p h t x < p.opts.tolerance → attemptErr p h t x ≠ 0 →
      (deriveLoop p t x a h).1.step_size =
        min p.opts.max_step
          (0.9 * h * (p.opts.tolerance / attemptErr p h t x) ^ ((1 : ℝ) / (p.order : ℝ)))) ∧
    (commitCond p a h t x → attemptErr p h t x = 0 → attemptErr p h t x < p.opts.tolerance →
      (deriveLoop p t x a h).1.step_size = p.opts.max_step) ∧
    (commitCond p a h t x → attemptErr p h t x = p.opts.tolerance →
      (deriveLoop p t x a h).1.step_size = h) ∧
    (¬ commitCond p a h t x →
      deriveLoop p t x a h = deriveLoop p t x (a + 1)
        (max p.opts.min_step
          (0.9 * h * (p.opts.tolerance / attemptErr p h t x) ^
            ((1 : ℝ) / ((p.order - 1 : ℕ) : ℝ))))) := by
  refine ⟨?_, ?_, ?_, ?_⟩
  · intro hc hlt hne
    rw [deriveLoop_commit _ _ _ _ _ hfs hc]
    show stepAfterCommit p h (attemptErr p h t x) = _
    simp only [stepAfterCommit, if_pos hlt, if_neg hne]
    by_cases hp : 0.9 * h * (p.opts.tolerance / attemptErr p h t x) ^
        ((1 : ℝ) / (p.order : ℝ)) > p.opts.max_step
    · rw [if_pos hp, min_eq_left (le_of_lt hp)]
    · rw [if_neg hp, min_eq_right (not_lt.mp hp)]
  · intro hc h0 hlt
    rw [deriveLoop_commit _ _ _ _ _ hfs hc]
    show stepAfterCommit p h (attemptErr p h t x) = _
    simp only [stepAfterCommit, if_pos hlt, if_pos h0]
  · intro hc heq
    rw [deriveLoop_commit _ _ _ _ _ hfs hc]
    show stepAfterCommit p h (attemptErr p h t x) = h
    simp only [stepAfterCommit]
    rw [if_neg (by rw [heq]; exact lt_irrefl _)]
  · intro hc
    rw [deriveLoop_reject _ _ _ _ _ hfs hc]
    have : stepAfterReject p h (attemptErr p h t x) =
        max p.opts.min_step
          (0.9 * h * (p.opts.tolerance / attemptErr p h t x) ^
            ((1 : ℝ) / ((p.order - 1 : ℕ) : ℝ))) := by
      simp only [stepAfterReject]
      by_cases hp : 0.9 * h * (p.opts.tolerance / attemptErr p h t x) ^
          ((1 : ℝ) / ((p.order - 1 : ℕ) : ℝ)) < p.opts.min_step
      · rw [if_pos hp, max_eq_left (le_of_lt hp)]
      · rw [if_neg hp, max_eq_right (not_lt.mp hp)]
    rw [this]

/-- Witness for C5: with a zero error estimate the committed step size is
`max_step`; with error estimate 3 above tolerance 1 the attempt is rejected
into the clamped retry step. -/
theorem derive_step_update_witness :
    (c4p.fixed_step = false ∧ commitCond c4p 1 1 0 (fun _ => 0) ∧
      attemptErr c4p 1 0 (fun _ => 0) = 0 ∧
      attemptErr c4p 1 0 (fun _ => 0) < c4p.opts.tolerance ∧
      (deriveLoop c4p 0 (fun _ => 0) 1 1).1.step_size = c4p.opts.max_step) ∧
    (cRej.fixed_step = false ∧ ¬ commitCond cRej 1 1 0 (fun _ => 0) ∧
      deriveLoop cRej 0 (fun _ => 0) 1 1 = deriveLoop cRej 0 (fun _ => 0) 2
        (max cRej.opts.min_step
          (0.9 * 1 * (cRej.opts.tolerance / attemptErr cRej 1 0 (fun _ => 0)) ^
            ((1 : ℝ) / ((cRej.order - 1 : ℕ) : ℝ))))) := by
  have h0 : attemptErr c4p 1 0 (fun _ => 0) = 0 := rfl
  have hlt : attemptErr c4p 1 0 (fun _ => 0) < c4p.opts.tolerance := by
    rw [h0]; norm_num [c4p, cP]
  have hcommit : commitCond c4p 1 1 0 (fun _ => 0) := by
    refine Or.inl ?_
    rw [h0]; norm_num [c4p, cP]
  have h3 : attemptErr cRej 1 0 (fun _ => 0) = 3 := rfl
  have hnc : ¬ commitCond cRej 1 1 0 (fun _ => 0) := by
    simp only [commitCond, h3, not_or, not_le]
    norm_num [cRej, cP]
  refine ⟨⟨rfl, hcommit, h0, hlt, ?_⟩, rfl, hnc, ?_⟩
  · exact (derive_step_update c4p 0 (fun _ => 0) 1 1 rfl).2.1 hcommit h0 hlt
  · exact (derive_step_update cRej 0 (fun _ => 0) 1 1 rfl).2.2.2 hnc

/-- C6: adaptive monotonicity.  A committed step with `err ≤ tolerance`
proposes a next step no smaller than 0.9 times the committed one; a rejected
attempt retries with a strictly smaller trial step unless the retry step is
clamped to `min_step`. -/
theorem derive_step_monotone {n : ℕ} (p : Propagator n) (t : ℝ) (x : Fin n → ℝ) (a : ℕ) (h : ℝ)
    (hfs : p.fixed_step = false) :
    (0 < h → h ≤ p.opts.max_step → 0 ≤ attemptErr p h t x →
      attemptErr p h t x ≤ p.opts.tolerance →
      0.9 * h ≤ (deriveLoop p t x a h).1.step_size) ∧
    (0 < h → 0 ≤ p.opts.tolerance → 2 ≤ p.order → ¬ commitCond p a h t x →
      deriveLoop p t x a h = deriveLoop p t x (a + 1) (stepAfterReject p h (attemptErr p h t x)) ∧
      (stepAfterReject p h (attemptErr p h t x) = p.opts.min_step ∨
        stepAfterReject p h (attemptErr p h t x) < h)) := by
  constructor
  · intro hh hmax he0 hetol
    have hc : commitCond p a h t x := Or.inl hetol
    rw [deriveLoop_commit _ _ _ _ _ hfs hc]
    show 0.9 * h ≤ stepAfterCommit p h (attemptErr p h t x)
    have h9 : 0.9 * h ≤ h := by linarith
    simp only [stepAfterCommit]
    by_cases hlt : attemptErr p h t x < p.opts.tolerance
    · rw [if_pos hlt]
      by_cases hz : attemptErr p h t x = 0
      · rw [if_pos hz]
        linarith
      · rw [if_neg hz]
        have herrpos : 0 < attemptErr p h t x := lt_of_le_of_ne he0 (Ne.symm hz)
        have hf : 1 ≤ p.opts.tolerance / attemptErr p h t x :=
          (one_le_div herrpos).mpr (le_of_lt hlt)
        have hfe : 1 ≤ (p.opts.tolerance / attemptErr p h t x) ^ ((1 : ℝ) / (p.order : ℝ)) :=
          Real.one_le_rpow hf (div_nonneg zero_le_one (Nat.cast_nonneg _))
        by_cases hp : 0.9 * h * (p.opts.tolerance / attemptErr p h t x) ^
            ((1 : ℝ) / (p.order : ℝ)) > p.opts.max_step
        · rw [if_pos hp]
          linarith
        · rw [if_neg hp]
          have h1 : 0.9 * h * 1 ≤ 0.9 * h * (p.opts.tolerance / attemptErr p h t x) ^
              ((1 : ℝ) / (p.order : ℝ)) :=
            mul_le_mul_of_nonneg_left hfe (by linarith)
          linarith
    · rw [if_neg hlt]
      exact h9
  · intro hh htol hord hc
    refine ⟨deriveLoop_reject _ _ _ _ _ hfs hc, ?_⟩
    have herr : p.opts.tolerance < attemptErr p h t x := by
      by_contra hle
      exact hc (Or.inl (not_lt.mp hle))
    have herrpos : 0 < attemptErr p h t x := lt_of_le_of_lt htol herr
    have hf0 : 0 ≤ p.opts.tolerance / attemptErr p h t x :=
      div_nonneg htol (le_of_lt herrpos)
    have hf1 : p.opts.tolerance / attemptErr p h t x < 1 := (div_lt_one herrpos).mpr herr
    have hepos : 0 < (1 : ℝ) / ((p.order - 1 : ℕ) : ℝ) := by
      have h1 : (1 : ℕ) ≤ p.order - 1 := by omega
      have hcast : (1 : ℝ) ≤ ((p.order - 1 : ℕ) : ℝ) := by exact_mod_cast h1
      exact div_pos one_pos (lt_of_lt_of_le zero_lt_one hcast)
    have hfe : (p.opts.tolerance / attemptErr p h t x) ^
        ((1 : ℝ) / ((p.order - 1 : ℕ) : ℝ)) < 1 := Real.rpow_lt_one hf0 hf1 hepos
    have hprop : 0.9 * h * (p.opts.tolerance / attemptErr p h t x) ^
        ((1 : ℝ) / ((p.order - 1 : ℕ) : ℝ)) < h := by
      have h2 : 0.9 * h * (p.opts.tolerance / attemptErr p h t x) ^
          ((1 : ℝ) / ((p.order - 1 : ℕ) : ℝ)) < 0.9 * h * 1 :=
        mul_lt_mul_of_pos_left hfe (by linarith)
      linarith
    simp only [stepAfterReject]
    by_cases hp : 0.9 * h * (p.opts.tolerance / attemptErr p h t x) ^
        ((1 : ℝ) / ((p.order - 1 : ℕ) : ℝ)) < p.opts.min_step
    · left
      rw [if_pos hp]
    · right
      rw [if_neg hp]
      exact hprop

/-- Witness for C6 at the two concrete propagators of the C5 witness. -/
theorem derive_step_monotone_witness :
    ((0 : ℝ) < 1 ∧ (1 : ℝ) ≤ c4p.opts.max_step ∧ 0 ≤ attemptErr c4p 1 0 (fun _ => 0) ∧
      attemptErr c4p 1 0 (fun _ => 0) ≤ c4p.opts.tolerance ∧
      0.9 * 1 ≤ (deriveLoop c4p 0 (fun _ => 0) 1 1).1.step_size) ∧
    (2 ≤ cRej.order ∧ ¬ commitCond cRej 1 1 0 (fun _ => 0) ∧
      (stepAfterReject cRej 1 (attemptErr cRej 1 0 (fun _ => 0)) = cRej.opts.min_step ∨
        stepAfterReject cRej 1 (attemptErr cRej 1 0 (fun _ => 0)) < 1)) := by
  have h0 : attemptErr c4p 1 0 (fun _ => 0) = 0 := rfl
  have h3 : attemptErr cRej 1 0 (fun _ => 0) = 3 := rfl
  have hmax : (1 : ℝ) ≤ c4p.opts.max_step := by norm_num [c4p, cP]
  have he0 : (0 : ℝ) ≤ attemptErr c4p 1 0 (fun _ => 0) := by rw [h0]
  have hetol : attemptErr c4p 1 0 (fun _ => 0) ≤ c4p.opts.tolerance := by
    rw [h0]; norm_num [c4p, cP]
  have hnc : ¬ commitCond cRej 1 1 0 (fun _ => 0) := by
    simp only [commitCond, h3, not_or, not_le]
    norm_num [cRej, cP]
  have htol : (0 : ℝ) ≤ cRej.opts.tolerance := by norm_num [cRej, cP]
  have hord : 2 ≤ cRej.order := by norm_num [cRej, cP]
  refine ⟨⟨one_pos, hmax, he0, hetol, ?_⟩, hord, hnc, ?_⟩
  · exact (derive_step_monotone c4p 0 (fun _ => 0) 1 1 rfl).1 one_pos hmax he0 hetol
  · exact ((derive_step_monotone cRej 0 (fun _ => 0) 1 1 rfl).2 one_pos htol hord hnc).2

/-- Specialization of `deriveLoop_time` to `derive`. -/
lemma derive_time {n : ℕ} (p : Propagator n) (t : ℝ) (x : Fin n → ℝ) :
    (derive p t x).2.1 = t + (derive p t x).1.details.step := by
  rw [derive]
  exact deriveLoop_time p t x 1 p.step_size

/-- In fixed-step mode the committed step equals the stored step size. -/
lemma derive_fixed_step_eq {n : ℕ} (p : Propagator n) (t : ℝ) (x : Fin n → ℝ)
    (hfs : p.fixed_step = true) :
    (derive p t x).1.details.step = p.step_size := by
  rw [derive, deriveLoop_fixed p t x 1 p.step_size hfs]

/-- `derive` preserves the dynamics time (projection form). -/
lemma derive_dynTime {n : ℕ} (p : Propagator n) (t : ℝ) (x : Fin n → ℝ) :
    (derive p t x).1.dynTime = p.dynTime := by
  rw [derive]
  exact deriveLoop_dynTime p t x 1 p.step_size

/-- Any successful return of the `until_time_elapsed` loop leaves the
*dynamics* exactly on the stopping time: the overshoot branch publishes the
corrected final step through `set_state` (the returned tuple, by the
block-scoping of line 154, is the pre-correction pair and is characterised
separately). -/
lemma utelLoop_dynTime {n : ℕ} (bp : Bool) (stop : ℝ) :
    ∀ (fuel : ℕ) (p : Propagator n) (r : Propagator n × ℝ × (Fin n → ℝ)),
      utelLoop bp stop fuel p = some r → r.1.dynTime = stop := by
  intro fuel
  induction fuel with
  | zero =>
    intro p r hr
    simp [utelLoop] at hr
  | succ fuel ih =>
    intro p r hr
    rw [utelLoop] at hr
    by_cases hcont : ((derive p p.dynTime p.dynState).2.1 < stop ∧ bp = false) ∨
        (stop ≤ (derive p p.dynTime p.dynState).2.1 ∧ bp = true)
    · rw [if_pos hcont] at hr
      exact ih _ r hr
    · rw [if_neg hcont] at hr
      by_cases hov : (bp = false ∧ 0 < (derive p p.dynTime p.dynState).2.1 - stop) ∨
          (bp = true ∧ (derive p p.dynTime p.dynState).2.1 - stop < 0)
      · rw [if_pos hov] at hr
        have hr2 := (Option.some_inj.mp hr).symm
        have ht2 : r.1.dynTime =
            (derive (setFixedStep (derive p p.dynTime p.dynState).1
                ((derive p p.dynTime p.dynState).1.details.step -
                  ((derive p p.dynTime p.dynState).2.1 - stop)))
              (setFixedStep (derive p p.dynTime p.dynState).1
                ((derive p p.dynTime p.dynState).1.details.step -
                  ((derive p p.dynTime p.dynState).2.1 - stop))).dynTime
              (setFixedStep (derive p p.dynTime p.dynState).1
                ((derive p p.dynTime p.dynState).1.details.step -
                  ((derive p p.dynTime p.dynState).2.1 - stop))).dynState).2.1 := by
          rw [hr2]
          rfl
        set p2 := setFixedStep (derive p p.dynTime p.dynState).1
            ((derive p p.dynTime p.dynState).1.details.step -
              ((derive p p.dynTime p.dynState).2.1 - stop)) with hp2
        have hfix : p2.fixed_step = true := rfl
        have hstep : p2.step_size = (derive p p.dynTime p.dynState).1.details.step -
            ((derive p p.dynTime p.dynState).2.1 - stop) := rfl
        have hdt : p2.dynTime = p.dynTime := by
          rw [hp2]
          show (derive p p.dynTime p.dynState).1.dynTime = p.dynTime
          exact derive_dynTime p p.dynTime p.dynState
        have ht1 : (derive p p.dynTime p.dynState).2.1 =
            p.dynTime + (derive p p.dynTime p.dynState).1.details.step :=
          derive_time p p.dynTime p.dynState
        rw [ht2, derive_time p2 p2.dynTime p2.dynState,
          derive_fixed_step_eq p2 p2.dynTime p2.dynState hfix, hstep, hdt]
        linarith
      · rw [if_neg hov] at hr
        have hr2 := (Option.some_inj.mp hr).symm
        have ht2 : r.1.dynTime = (derive p p.dynTime p.dynState).2.1 := by
          rw [hr2]
          rfl
        rw [ht2]
        cases bp with
        | false =>
          simp only [not_or, not_and, not_lt] at hcont hov
          have h1 := hcont.1
          have h2 := hov.1
          simp at h1 h2
          linarith [h1, h2]
        | true =>
          simp only [not_or, not_and, not_lt, not_le] at hcont hov
          have h1 := hcont.2
          have h2 := hov.2
          simp at h1 h2
          linarith [h1, h2]

/-- `until_time_elapsed` leaves the dynamics exactly on the stopping time
whenever it returns. -/
lemma untilTimeElapsed_dynTime {n : ℕ} (fuel : ℕ) (p : Propagator n) (elapsed : ℝ)
    (r : Propagator n × ℝ × (Fin n → ℝ)) (hr : untilTimeElapsed fuel p elapsed = some r) :
    r.1.dynTime = p.dynTime + elapsed := by
  rw [untilTimeElapsed] at hr
  by_cases he : elapsed < 0
  · simp only [he, if_pos, if_true, ite_true] at hr
    exact utelLoop_dynTime true _ fuel _ r hr
  · simp only [he, if_neg, if_false, ite_false] at hr
    exact utelLoop_dynTime false _ fuel _ r hr

/-- C3 (amended): on the first crossing of `t_stop` with a nonzero overshoot,
`until_time_elapsed` re-invokes `derive` exactly once, on the propagator put
into fixed-step mode with the one-shot step `h_last - overshoot`, and
publishes the corrected step to the dynamics, whose time then equals `t_stop`
exactly; but the *returned* `(time, state)` pair is the pre-correction
overshooting one (the corrective rebinding at line 154 is block-scoped, so
`return (t, state)` at line 169 returns the outer pair), and the fixed-step
override persists -- `set_fixed_step` is never undone, so the returned
propagator stays in fixed-step mode for subsequent calls. -/
theorem until_time_overshoot_one_shot {n : ℕ} :
    (∀ (fuel : ℕ) (p : Propagator n) (elapsed : ℝ) (r : Propagator n × ℝ × (Fin n → ℝ)),
      untilTimeElapsed fuel p elapsed = some r → r.1.dynTime = p.dynTime + elapsed) ∧
    (∀ (fuel : ℕ) (p : Propagator n) (elapsed : ℝ),
      ¬ elapsed < 0 →
      p.dynTime + elapsed < (derive p p.dynTime p.dynState).2.1 →
      untilTimeElapsed (fuel + 1) p elapsed =
        some
          (setState
            (derive
              (setFixedStep (derive p p.dynTime p.dynState).1
                ((derive p p.dynTime p.dynState).1.details.step -
                  ((derive p p.dynTime p.dynState).2.1 - (p.dynTime + elapsed))))
              (setFixedStep (derive p p.dynTime p.dynState).1
                ((derive p p.dynTime p.dynState).1.details.step -
                  ((derive p p.dynTime p.dynState).2.1 - (p.dynTime + elapsed)))).dynTime
              (setFixedStep (derive p p.dynTime p.dynState).1
                ((derive p p.dynTime p.dynState).1.details.step -
                  ((derive p p.dynTime p.dynState).2.1 - (p.dynTime + elapsed)))).dynState).1
            (derive
              (setFixedStep (derive p p.dynTime p.dynState).1
                ((derive p p.dynTime p.dynState).1.details.step -
                  ((derive p p.dynTime p.dynState).2.1 - (p.dynTime + elapsed))))
              (setFixedStep (derive p p.dynTime p.dynState).1
                ((derive p p.dynTime p.dynState).1.details.step -
                  ((derive p p.dynTime p.dynState).2.1 - (p.dynTime + elapsed)))).dynTime
              (setFixedStep (derive p p.dynTime p.dynState).1
                ((derive p p.dynTime p.dynState).1.details.step -
                  ((derive p p.dynTime p.dynState).2.1 - (p.dynTime + elapsed)))).dynState).2.1
            (derive
              (setFixedStep (derive p p.dynTime p.dynState).1
                ((derive p p.dynTime p.dynState).1.details.step -
                  ((derive p p.dynTime p.dynState).2.1 - (p.dynTime + elapsed))))
              (setFixedStep (derive p p.dynTime p.dynState).1
                ((derive p p.dynTime p.dynState).1.details.step -
                  ((derive p p.dynTime p.dynState).2.1 - (p.dynTime + elapsed)))).dynTime
              (setFixedStep (derive p p.dynTime p.dynState).1
                ((derive p p.dynTime p.dynState).1.details.step -
                  ((derive p p.dynTime p.dynState).2.1 - (p.dynTime + elapsed)))).dynState).2.2,
          (derive p p.dynTime p.dynState).2.1,
          (derive p p.dynTime p.dynState).2.2) ∧
      ∀ (r : Propagator n × ℝ × (Fin n → ℝ)),
        untilTimeElapsed (fuel + 1) p elapsed = some r →
        r.1.fixed_step = true ∧ r.1.dynTime = p.dynTime + elapsed ∧
        r.2.1 = (derive p p.dynTime p.dynState).2.1) := by
  constructor
  · exact fun fuel p elapsed r hr => untilTimeElapsed_dynTime fuel p elapsed r hr
  · intro fuel p elapsed he hcross
    have hueq : untilTimeElapsed (fuel + 1) p elapsed =
        utelLoop false (p.dynTime + elapsed) (fuel + 1) p := by
      rw [untilTimeElapsed]
      simp [he]
    have hcont : ¬ (((derive p p.dynTime p.dynState).2.1 < p.dynTime + elapsed ∧
        (false : Bool) = false) ∨
        (p.dynTime + elapsed ≤ (derive p p.dynTime p.dynState).2.1 ∧ (false : Bool) = true)) := by
      simp only [not_or, not_and]
      constructor
      · intro hlt
        exact absurd hlt (not_lt.mpr (le_of_lt hcross))
      · intro _
        simp
    have hov : ((false : Bool) = false ∧
        0 < (derive p p.dynTime p.dynState).2.1 - (p.dynTime + elapsed)) ∨
        ((false : Bool) = true ∧
          (derive p p.dynTime p.dynState).2.1 - (p.dynTime + elapsed) < 0) := by
      left
      exact ⟨rfl, by linarith⟩
    refine ⟨?_, ?_⟩
    · rw [hueq, utelLoop, if_neg hcont, if_pos hov]
    · intro r hr
      have ht := untilTimeElapsed_dynTime (fuel + 1) p elapsed r hr
      rw [hueq, utelLoop, if_neg hcont, if_pos hov] at hr
      have hr2 := (Option.some_inj.mp hr).symm
      refine ⟨?_, ht, ?_⟩
      · rw [hr2]
        show (derive _ _ _).1.fixed_step = true
        rw [derive, deriveLoop_fixedFlag]
        rfl
      · rw [hr2]

/-- Witness for the amended C3: the concrete adaptive propagator `c3prop`
crosses `t_stop = 1/2` on its first unit step with overshoot 1/2. -/
theorem until_time_overshoot_one_shot_witness :
    (¬ (1/2 : ℝ) < 0) ∧
    (c3prop.dynTime + 1/2 < (derive c3prop c3prop.dynTime c3prop.dynState).2.1) ∧
    ∃ r : Propagator 1 × ℝ × (Fin 1 → ℝ),
      untilTimeElapsed 1 c3prop (1/2) = some r ∧ r.1.fixed_step = true ∧
      r.1.dynTime = c3prop.dynTime + 1/2 ∧
      r.2.1 = (derive c3prop c3prop.dynTime c3prop.dynState).2.1 := by
  have hne : ¬ (1/2 : ℝ) < 0 := by norm_num
  have hez : attemptErr c3prop c3prop.step_size c3prop.dynTime c3prop.dynState = 0 := rfl
  have hcommit : commitCond c3prop 1 c3prop.step_size c3prop.dynTime c3prop.dynState := by
    refine Or.inl ?_
    rw [hez]
    norm_num [c3prop, cP]
  have hder : (derive c3prop c3prop.dynTime c3prop.dynState).2.1 =
      c3prop.dynTime + c3prop.step_size := by
    rw [derive, deriveLoop_commit _ _ _ _ _ rfl hcommit]
  have hcross : c3prop.dynTime + 1/2 < (derive c3prop c3prop.dynTime c3prop.dynState).2.1 := by
    rw [hder]
    norm_num [c3prop, cP]
  obtain ⟨heq, hall⟩ := (until_time_overshoot_one_shot (n := 1)).2 0 c3prop (1/2) hne hcross
  exact ⟨hne, hcross,
    ⟨_, heq, (hall _ heq).1, (hall _ heq).2.1, (hall _ heq).2.2⟩⟩

/-- C3 counterexample: `c3prop` starts in adaptive mode and crosses
`t_stop = 1/2` with overshoot 1/2 on its first unit step.  After the call the
returned propagator is (permanently) in fixed-step mode -- the one-shot
override persists into subsequent propagator calls -- and the *returned* time
is the overshooting 1, not `t_stop = 1/2`: only the dynamics carried by the
propagator lands on `t_stop` exactly. -/
theorem until_time_fixed_persists_counterexample :
    c3prop.fixed_step = false ∧
    (untilTimeElapsed 1 c3prop (1/2)).map (fun r => r.1.fixed_step) = some true ∧
    (untilTimeElapsed 1 c3prop (1/2)).map (fun r => r.2.1) = some (1 : ℝ) ∧
    (untilTimeElapsed 1 c3prop (1/2)).map (fun r => r.1.dynTime) = some ((1:ℝ)/2) := by
  have hne : ¬ (1/2 : ℝ) < 0 := by norm_num
  have hueq : untilTimeElapsed 1 c3prop (1/2) =
      utelLoop false (c3prop.dynTime + 1/2) 1 c3prop := by
    rw [untilTimeElapsed, if_neg hne, if_neg Bool.false_ne_true]
  have hez : attemptErr c3prop c3prop.step_size c3prop.dynTime c3prop.dynState = 0 := rfl
  have hcommit : commitCond c3prop 1 c3prop.step_size c3prop.dynTime c3prop.dynState := by
    refine Or.inl ?_
    rw [hez]
    norm_num [c3prop, cP]
  have hd1 := deriveLoop_commit c3prop c3prop.dynTime c3prop.dynState 1 c3prop.step_size rfl
    hcommit
  have ht1 : (derive c3prop c3prop.dynTime c3prop.dynState).2.1 = 1 := by
    rw [derive, hd1]
    norm_num [c3prop, cP]
  have hstep1 : (derive c3prop c3prop.dynTime c3prop.dynState).1.details.step = 1 := by
    rw [derive, hd1]
    norm_num [c3prop, cP]
  have hcont : ¬ (((derive c3prop c3prop.dynTime c3prop.dynState).2.1 < c3prop.dynTime + 1/2 ∧
      (false : Bool) = false) ∨
      (c3prop.dynTime + 1/2 ≤ (derive c3prop c3prop.dynTime c3prop.dynState).2.1 ∧
        (false : Bool) = true)) := by
    rw [ht1]
    norm_num [c3prop, cP]
  have hov : ((false : Bool) = false ∧
      0 < (derive c3prop c3prop.dynTime c3prop.dynState).2.1 - (c3prop.dynTime + 1/2)) ∨
      ((false : Bool) = true ∧
        (derive c3prop c3prop.dynTime c3prop.dynState).2.1 - (c3prop.dynTime + 1/2) < 0) := by
    refine Or.inl ⟨rfl, ?_⟩
    rw [ht1]
    norm_num [c3prop, cP]
  refine ⟨rfl, ?_, ?_, ?_⟩
  · rw [hueq, utelLoop, if_neg hcont, if_pos hov, Option.map_some']
    show some (derive _ _ _).1.fixed_step = some true
    rw [derive, deriveLoop_fixedFlag]
    rfl
  · rw [hueq, utelLoop, if_neg hcont, if_pos hov, Option.map_some']
    show some (derive c3prop c3prop.dynTime c3prop.dynState).2.1 = some (1 : ℝ)
    rw [ht1]
  · rw [hueq, utelLoop, if_neg hcont, if_pos hov, Option.map_some']
    set d1 := derive c3prop c3prop.dynTime c3prop.dynState with hd1def
    set p2 := setFixedStep d1.1 (d1.1.details.step - (d1.2.1 - (c3prop.dynTime + 1/2)))
      with hp2def
    show some (derive p2 p2.dynTime p2.dynState).2.1 = some ((1:ℝ)/2)
    rw [derive_time p2 p2.dynTime p2.dynState]
    rw [derive_fixed_step_eq p2 p2.dynTime p2.dynState (by rw [hp2def]; rfl)]
    refine congrArg some ?_
    have e1 : p2.dynTime = c3prop.dynTime := by
      rw [hp2def]
      show d1.1.dynTime = _
      rw [hd1def]
      exact derive_dynTime _ _ _
    have e2 : p2.step_size = d1.1.details.step - (d1.2.1 - (c3prop.dynTime + 1/2)) := by
      rw [hp2def]
      rfl
    rw [e1, e2, hstep1, ht1]
    norm_num [c3prop, cP]

/-- Folding the point-mass accumulation equals the prior accumulator plus the
sum of the per-body contributions (skipped bodies contributing zero). -/
lemma pmFold_eq_sum (pm : PointMasses) (osc : Orbit) :
    ∀ (l : List Frame) (acc : Fin 3 → ℝ),
      l.foldl (fun dx tb => if tb = osc.frame then dx else dx + pmBodyAccel pm osc tb) acc =
        acc + (l.map fun tb => if tb = osc.frame then 0 else pmBodyAccel pm osc tb).sum := by
  intro l
  induction l with
  | nil =>
    intro acc
    simp
  | cons hd tl ih =>
    intro acc
    simp only [List.foldl_cons, List.map_cons, List.sum_cons]
    by_cases hhd : hd = osc.frame
    · rw [if_pos hhd, if_pos hhd, ih, zero_add]
    · rw [if_neg hhd, if_neg hhd, ih, add_assoc]

/-- C7: `PointMasses::eom` returns the sum, over every configured third body
whose frame differs from the osculating orbit's integration frame (equal
frames skipped), of `-GM_B · (r_sc/‖r_sc‖³ + r_iB/‖r_iB‖³)` with
`r_iB` the ephemeris position of the body and `r_sc = r - r_iB`. -/
theorem pm_eom_is_sum (pm : PointMasses) (osc : Orbit) :
    pmEomFn pm osc =
      (pm.bodies.map fun tb => if tb = osc.frame then 0 else pmBodyAccel pm osc tb).sum := by
  rw [pmEomFn, pmFold_eq_sum]
  show (0 : Fin 3 → ℝ) + _ = _
  rw [zero_add]



/-- Row 0 of the `dual_eom` Jacobian at a lifted state reads the dual slot 4
of the first velocity component: entry `(0,3)` is exactly 1 for any lift. -/
lemma c1_grad_entry (ctx : Orbit) (v : Fin 6 → ℝ) :
    (orbitalDualEom [] ctx (lift6 v)).2 0 ⟨3, by norm_num⟩ = 1 := by
  simp only [orbitalDualEom, List.foldl_nil, Matrix.of_apply]
  norm_num [lift6, Fin.succ_mk]
  intro h
  exact absurd h (by decide)

/-- Row-major flattening sends `(i,j)` to `6 i + j`; entry 3 of the trailing
36 entries is `stm_dt[(0, 3)]`. -/
theorem orbital_eom_stm_product_order_bug :
    orbitalEom [] c1Ctor 0 c1State c1Ctx ⟨9, by norm_num⟩ = 1 ∧
    ((orbitalDualEom [] c1Ctx (lift6 c1PosVel)).2 * c1Phi) ⟨0, by norm_num⟩ ⟨3, by norm_num⟩ = 0 ∧
    (fun k : Fin 36 => orbitalEom [] c1Ctor 0 c1State c1Ctx ⟨6 + k.val, by omega⟩) ≠
      (fun k : Fin 36 =>
        ((orbitalDualEom [] c1Ctx (lift6 c1PosVel)).2 * c1Phi) ⟨k.val / 6, by omega⟩
          ⟨k.val % 6, by omega⟩) := by
  have h1 : orbitalEom [] c1Ctor 0 c1State c1Ctx ⟨9, by norm_num⟩ = 1 := by
    rw [orbitalEom]
    simp only [c1Ctx, Option.isSome_some, if_true]
    norm_num
    rw [Matrix.mul_apply]
    simp only [Orbit.stmD, Option.getD_some]
    rw [Finset.sum_eq_single (0 : Fin 6)]
    · rw [c1_grad_entry]
      simp [c1Phi]
    · intro b _ hb
      simp [c1Phi, hb]
    · intro h
      simp at h
  have h2 : ((orbitalDualEom [] c1Ctx (lift6 c1PosVel)).2 * c1Phi)
      ⟨0, by norm_num⟩ ⟨3, by norm_num⟩ = 0 := by
    rw [Matrix.mul_apply]
    refine Finset.sum_eq_zero ?_
    intro j _
    have hz : c1Phi j ⟨3, by norm_num⟩ = 0 := by
      simp only [c1Phi, Matrix.of_apply]
      rw [if_neg]
      rintro ⟨-, hj⟩
      exact absurd hj (by decide)
    rw [hz, mul_zero]
  refine ⟨h1, h2, ?_⟩
  intro heq
  have h3 := congrFun heq ⟨3, by norm_num⟩
  have hl : orbitalEom [] c1Ctor 0 c1State c1Ctx
      ⟨6 + ((⟨3, by norm_num⟩ : Fin 36)).val, by omega⟩ = 1 := h1
  have hr : ((orbitalDualEom [] c1Ctx (lift6 c1PosVel)).2 * c1Phi)
      ⟨((⟨3, by norm_num⟩ : Fin 36)).val / 6, by omega⟩
      ⟨((⟨3, by norm_num⟩ : Fin 36)).val % 6, by omega⟩ = 0 := h2
  rw [hl, hr] at h3
  exact one_ne_zero h3

/-- A property preserved by every step of a fold is preserved by the fold. -/
lemma foldl_pres {α β : Type} (P : β → Prop) (step : β → α → β) :
    ∀ (l : List α) (b : β), P b → (∀ b' a, a ∈ l → P b' → P (step b' a)) → P (l.foldl step b) := by
  intro l
  induction l with
  | nil =>
    intro b hb _
    simpa using hb
  | cons hd tl ih =>
    intro b hb hstep
    simp only [List.foldl_cons]
    exact ih _ (hstep b hd (by simp) hb) (fun b' a ha => hstep b' a (by simp [ha]))

/-- "Zero strictly above the diagonal" for a functional table. -/
def UpperZero (f : ℕ → ℕ → ℝ) : Prop := ∀ a b, a < b → f a b = 0

/-- Writing at or below the diagonal preserves `UpperZero`. -/
lemma upperZero_write (f : ℕ → ℕ → ℝ) (i j : ℕ) (v : ℝ) (hji : j ≤ i)
    (hP : UpperZero f) : UpperZero (tWrite f i j v) := by
  intro a b hab
  rw [tWrite, if_neg]
  · exact hP a b hab
  · rintro ⟨rfl, rfl⟩
    omega

/-- Every entry of `aTable` strictly above the diagonal is zero: all write
phases of the recursion target positions with column ≤ row. -/
lemma aTable_upper_zero (N M : ℕ) (u : ℝ) : UpperZero (aTable N M u) := by
  have h0 : UpperZero (tWrite (fun _ _ => 0) 0 0 1) :=
    upperZero_write _ 0 0 1 (le_refl 0) (fun _ _ _ => rfl)
  have h1 : UpperZero (aDiag N (tWrite (fun _ _ => 0) 0 0 1)) := by
    rw [aDiag]
    exact foldl_pres UpperZero _ _ _ h0
      (fun f nn _ hf => upperZero_write f nn nn _ (le_refl nn) hf)
  have h2 : UpperZero
      (tWrite (aDiag N (tWrite (fun _ _ => 0) 0 0 1)) 1 0 (u * Real.sqrt 3)) :=
    upperZero_write _ 1 0 _ (by omega) h1
  have h3 : UpperZero
      (aSubDiag N u (tWrite (aDiag N (tWrite (fun _ _ => 0) 0 0 1)) 1 0 (u * Real.sqrt 3))) := by
    rw [aSubDiag]
    exact foldl_pres UpperZero _ _ _ h2
      (fun f nn _ hf => upperZero_write f (nn + 1) nn _ (by omega) hf)
  rw [aTable, aColFill]
  refine foldl_pres UpperZero _ _ _ h3 ?_
  intro f mm _ hf
  refine foldl_pres UpperZero _ _ _ hf ?_
  intro g nn hnn hg
  refine upperZero_write g nn mm _ ?_ hg
  have := (List.mem_range'_1.mp hnn).1
  omega

/-- After the diagonal phase, every diagonal entry up to the fold bound is
strictly positive. -/
lemma aDiagAux_pos (f0 : ℕ → ℕ → ℝ) (h00 : f0 0 0 = 1) :
    ∀ c : ℕ, ∀ j, j ≤ c → 0 < ((List.range' 1 c).foldl
      (fun f nn =>
        tWrite f nn nn (Real.sqrt ((2 * (nn : ℝ) + 1) / (2 * (nn : ℝ))) * f (nn - 1) (nn - 1)))
      f0) j j := by
  intro c
  induction c with
  | zero =>
    intro j hj
    have hj0 : j = 0 := Nat.le_zero.mp hj
    subst hj0
    simp only [List.range'_zero, List.foldl_nil, h00]
    exact one_pos
  | succ c ih =>
    intro j hj
    rw [List.range'_1_concat, List.foldl_append, List.foldl_cons, List.foldl_nil]
    by_cases hjc : j = 1 + c
    · subst hjc
      rw [tWrite, if_pos ⟨rfl, rfl⟩]
      have harg : (0 : ℝ) < (2 * ((1 + c : ℕ) : ℝ) + 1) / (2 * ((1 + c : ℕ) : ℝ)) := by
        have hc : (0 : ℝ) < ((1 + c : ℕ) : ℝ) := by
          exact_mod_cast Nat.pos_of_ne_zero (by omega)
        positivity
      have hsub : 1 + c - 1 = c := by omega
      rw [hsub]
      exact mul_pos (Real.sqrt_pos.mpr harg) (ih c (le_refl c))
    · have hjc' : j ≤ c := by omega
      rw [tWrite, if_neg (by rintro ⟨rfl, -⟩; omega)]
      exact ih j hjc'

/-- "Diagonal agrees with the diagonal-phase table". -/
def DiagAgrees (N : ℕ) (f : ℕ → ℕ → ℝ) : Prop :=
  ∀ a, f a a = aDiag N (tWrite (fun _ _ => 0) 0 0 1) a a

/-- Writing off the diagonal preserves `DiagAgrees`. -/
lemma diagAgrees_write (N : ℕ) (f : ℕ → ℕ → ℝ) (i j : ℕ) (v : ℝ) (hij : i ≠ j)
    (hf : DiagAgrees N f) : DiagAgrees N (tWrite f i j v) := by
  intro a
  rw [tWrite, if_neg]
  · exact hf a
  · rintro ⟨rfl, rfl⟩
    exact hij rfl

/-- The sub-diagonal and column-fill phases never touch the diagonal. -/
lemma aTable_diag_eq (N M : ℕ) (u : ℝ) : DiagAgrees N (aTable N M u) := by
  have h2 : DiagAgrees N
      (tWrite (aDiag N (tWrite (fun _ _ => 0) 0 0 1)) 1 0 (u * Real.sqrt 3)) :=
    diagAgrees_write N _ 1 0 _ (by omega) (fun a => rfl)
  have h3 : DiagAgrees N
      (aSubDiag N u (tWrite (aDiag N (tWrite (fun _ _ => 0) 0 0 1)) 1 0 (u * Real.sqrt 3))) := by
    rw [aSubDiag]
    exact foldl_pres (DiagAgrees N) _ _ _ h2
      (fun f nn _ hf => diagAgrees_write N f (nn + 1) nn _ (by omega) hf)
  rw [aTable, aColFill]
  refine foldl_pres (DiagAgrees N) _ _ _ h3 ?_
  intro f mm _ hf
  refine foldl_pres (DiagAgrees N) _ _ _ hf ?_
  intro g nn hnn hg
  refine diagAgrees_write N g nn mm _ ?_ hg
  have := (List.mem_range'_1.mp hnn).1
  omega

/-- Every diagonal entry of `aTable` inside the allocated range is positive. -/
lemma aTable_diag_pos (N M : ℕ) (u : ℝ) (nn : ℕ) (hnn : nn ≤ N + 2) :
    0 < aTable N M u nn nn := by
  rw [aTable_diag_eq N M u nn, aDiag]
  exact aDiagAux_pos _ (by simp [tWrite]) (N + 2) nn hnn

/-- C8: for every position of nonzero norm, the associated-Legendre table
built by `Harmonics::eom` (at `u = z/r`) is zero strictly above the diagonal,
and every diagonal entry the recursion fills is strictly positive. -/
theorem harmonics_legendre_table_invariants (N M : ℕ) (pos : Fin 3 → ℝ)
    (hnz : norm3 pos ≠ 0) (nn mm : ℕ) (h1 : nn ≤ N + 2) (h2 : mm ≤ N + 2) :
    (nn < mm → aTable N M (pos 2 / norm3 pos) nn mm = 0) ∧
    0 < aTable N M (pos 2 / norm3 pos) nn nn :=
  ⟨fun h => aTable_upper_zero N M (pos 2 / norm3 pos) nn mm h,
    aTable_diag_pos N M (pos 2 / norm3 pos) nn h1⟩


/-- Witness for C8 at the position `(0,0,1)`, `N = M = 0`, `(n, m) = (0, 2)`. -/
theorem harmonics_legendre_table_invariants_witness :
    (norm3 ![0, 0, 1] ≠ 0 ∧ (0 : ℕ) ≤ 0 + 2 ∧ (2 : ℕ) ≤ 0 + 2) ∧
    ((0 < 2 → aTable 0 0 ((![0, 0, 1] : Fin 3 → ℝ) 2 / norm3 ![0, 0, 1]) 0 2 = 0) ∧
      0 < aTable 0 0 ((![0, 0, 1] : Fin 3 → ℝ) 2 / norm3 ![0, 0, 1]) 0 0) := by
  have hn : norm3 ![0, 0, 1] = 1 := by
    rw [norm3]
    norm_num
  have hnz : norm3 ![0, 0, 1] ≠ 0 := by
    rw [hn]
    exact one_ne_zero
  exact ⟨⟨hnz, by omega, by omega⟩,
    harmonics_legendre_table_invariants 0 0 ![0, 0, 1] hnz 0 2 (by omega) (by omega)⟩

/-- C10: for every input state whose position has nonzero norm,
`Harmonics::eom` returns a 6-vector whose first three components are exactly
zero -- the model contributes only an acceleration delta, never a velocity
contribution. -/
theorem harmonics_eom_velocity_zero (neg_mu body_radius : ℝ) (cs : ℕ → ℕ → ℝ × ℝ)
    (N M : ℕ) (state : Fin 6 → ℝ)
    (hnz : norm3 (fun i => state ⟨i.val, by omega⟩) ≠ 0) :
    harmonicsEom neg_mu body_radius cs N M state 0 = 0 ∧
    harmonicsEom neg_mu body_radius cs N M state 1 = 0 ∧
    harmonicsEom neg_mu body_radius cs N M state 2 = 0 := by
  refine ⟨?_, ?_, ?_⟩ <;> rfl

/-- Witness for C10 at the state `(1,0,0,0,0,0)` with a trivial coefficient
storage. -/
theorem harmonics_eom_velocity_zero_witness :
    norm3 (fun i => c1PosVel ⟨i.val, by omega⟩) ≠ 0 ∧
    harmonicsEom 1 1 (fun _ _ => (0, 0)) 2 2 c1PosVel 0 = 0 := by
  have hn : norm3 (fun i => c1PosVel ⟨i.val, by omega⟩) = 1 := by
    rw [norm3]
    norm_num [c1PosVel]
  have hnz : norm3 (fun i => c1PosVel ⟨i.val, by omega⟩) ≠ 0 := by
    rw [hn]
    exact one_ne_zero
  exact ⟨hnz, (harmonics_eom_velocity_zero 1 1 (fun _ _ => (0, 0)) 2 2 c1PosVel hnz).1⟩

end
